import Mathlib

/-!
Shallow embedding of `block.go` (package aesext): a padded block-cipher
wrapper combining a block-cipher primitive, a CBC-style chaining mode and
PKCS#5/#7 padding.

Modelling conventions:
* a byte buffer `[]byte` is a `List Nat` (entries are byte values);
* a Go `error` result is an `Except GoError`;
* a Go run-time panic (integer modulo by zero) is the `none` of an
  outer `Option` layer;
* the external `crypto/cipher` primitives are modelled by a `Block`
  structure holding a block size and the per-block encrypt/decrypt maps,
  and the default CBC chaining mode is defined explicitly below.
-/

/-- The sentinel error values declared in `block.go`, plus an `external`
constructor for opaque errors propagated unchanged from a cipher factory. -/
inductive GoError where
  | errInputNotMultipleBlocks
  | errInvalidIvSize
  | errUnPaddingOutOfRange
  | external (tag : Nat)
deriving DecidableEq, Repr

/-- PCKSPadding (`block.go` lines 103-107): append `padSize` copies of the
byte `byte(padSize)` where `padSize = blockSize - len(origData) % blockSize`.
Go's `%` panics on a zero divisor, modelled as `none`; the byte conversion
`byte(padSize)` truncates modulo 256. -/
def PCKSPadding (origData : List Nat) (blockSize : Nat) : Option (List Nat) :=
  if blockSize = 0 then none
  else
    let padSize := blockSize - origData.length % blockSize
    let padText := List.replicate padSize (padSize % 256)
    some (origData ++ padText)

/-- PCKSUnPadding (`block.go` lines 110-120): read the last byte as the pad
size, fail when the input is empty or the pad size exceeds the length,
otherwise drop that many trailing bytes. -/
def PCKSUnPadding (origData : List Nat) : Except GoError (List Nat) :=
  let length := origData.length
  if length = 0 then .error .errUnPaddingOutOfRange
  else
    let unPadSize := origData.getD (length - 1) 0
    if unPadSize > length then .error .errUnPaddingOutOfRange
    else .ok (origData.take (length - unPadSize))

/-! ### The cipher primitive, the CBC chaining mode and the wrapper -/

/-- A `crypto/cipher` `Block` primitive: a fixed block size together with the
single-block encrypt and decrypt maps. Treated as an external, already-correct
primitive; theorems that need it assume it is a genuine block cipher
(length-preserving, decrypt inverting encrypt on blocks). -/
structure Block where
  blockSize : Nat
  enc : List Nat -> List Nat
  dec : List Nat -> List Nat

/-- Pointwise xor of two byte buffers (the core of CBC). -/
def xorBytes (a b : List Nat) : List Nat :=
  List.zipWith (fun x y => x ^^^ y) a b

/-- CBC encryption over `n` blocks of size `bs`: each plaintext block is
xored with the previous ciphertext block (initially the IV) and then
encrypted. Models `cipher.NewCBCEncrypter(...).CryptBlocks` on a buffer of
`n` blocks. -/
def cbcEncryptAux (enc : List Nat -> List Nat) (bs : Nat) :
    Nat -> List Nat -> List Nat -> List Nat
  | 0, _, _ => []
  | n + 1, prev, data =>
    let c := enc (xorBytes prev (data.take bs))
    c ++ cbcEncryptAux enc bs n c (data.drop bs)

/-- CBC decryption over `n` blocks of size `bs`: each ciphertext block is
decrypted and xored with the previous ciphertext block (initially the IV).
Models `cipher.NewCBCDecrypter(...).CryptBlocks` on a buffer of `n` blocks. -/
def cbcDecryptAux (dec : List Nat -> List Nat) (bs : Nat) :
    Nat -> List Nat -> List Nat -> List Nat
  | 0, _, _ => []
  | n + 1, prev, data =>
    xorBytes prev (dec (data.take bs)) ++
      cbcDecryptAux dec bs n (data.take bs) (data.drop bs)

/-- The default encrypting chaining-mode factory (`cipher.NewCBCEncrypter`),
specialised to whole-buffer operation. -/
def newCBCEncrypter (b : Block) (iv : List Nat) : List Nat -> List Nat :=
  fun src => cbcEncryptAux b.enc b.blockSize (src.length / b.blockSize) iv src

/-- The default decrypting chaining-mode factory (`cipher.NewCBCDecrypter`),
specialised to whole-buffer operation. -/
def newCBCDecrypter (b : Block) (iv : List Nat) : List Nat -> List Nat :=
  fun src => cbcDecryptAux b.dec b.blockSize (src.length / b.blockSize) iv src

/-- The `blockBlock` wrapper (`block.go` lines 74-79): the cipher primitive,
the IV and the two pluggable chaining-mode factories. A factory takes the
primitive and the IV and yields the whole-buffer transform. -/
structure blockBlock where
  block : Block
  iv : List Nat
  newEncrypt : Block -> List Nat -> List Nat -> List Nat
  newDecrypt : Block -> List Nat -> List Nat -> List Nat

/-- WithBlockCodec (`block.go` lines 34-39): an option replacing both
chaining-mode factories. -/
def WithBlockCodec (ne nd : Block -> List Nat -> List Nat -> List Nat) :
    blockBlock -> blockBlock :=
  fun bs => { bs with newEncrypt := ne, newDecrypt := nd }

/-- NewBlockCrypt (`block.go` lines 53-72): build the primitive from the key
(propagating its error unchanged), validate the IV length against the block
size, then apply the options to the default-CBC wrapper. -/
def NewBlockCrypt (key iv : List Nat) (newCipher : List Nat -> Except GoError Block)
    (opts : List (blockBlock -> blockBlock)) : Except GoError blockBlock :=
  match newCipher key with
  | .error err => .error err
  | .ok block =>
    if iv.length ≠ block.blockSize then .error .errInvalidIvSize
    else
      .ok (opts.foldl (fun bb opt => opt bb)
        { block := block, iv := iv
          newEncrypt := newCBCEncrypter, newDecrypt := newCBCDecrypter })

/-- blockBlock.BlockSize (`block.go` lines 81-83). -/
def blockBlock.BlockSize (sf : blockBlock) : Nat :=
  sf.block.blockSize

/-- blockBlock.Encrypt (`block.go` lines 86-90): pad, then run the
encrypting chaining transform over the padded buffer. The outer `Option`
carries the modulo-by-zero panic of `PCKSPadding` at block size 0. -/
def blockBlock.Encrypt (sf : blockBlock) (plainText : List Nat) :
    Option (Except GoError (List Nat)) :=
  match PCKSPadding plainText sf.block.blockSize with
  | none => none
  | some orig => some (.ok (sf.newEncrypt sf.block sf.iv orig))

/-- blockBlock.Decrypt (`block.go` lines 93-100): reject an empty buffer or a
length that is not a multiple of the block size, otherwise run the decrypting
chaining transform and unpad. Go checks `len == 0` first (short-circuit), so
a zero block size panics (`none`) only on non-empty input. -/
def blockBlock.Decrypt (sf : blockBlock) (cipherText : List Nat) :
    Option (Except GoError (List Nat)) :=
  if cipherText.length = 0 then some (.error .errInputNotMultipleBlocks)
  else if sf.block.blockSize = 0 then none
  else if cipherText.length % sf.block.blockSize ≠ 0 then
    some (.error .errInputNotMultipleBlocks)
  else
    some (PCKSUnPadding (sf.newDecrypt sf.block sf.iv cipherText))

/-- Decrypt composed after Encrypt (the round-trip of claim C1). -/
def encryptThenDecrypt (bb : blockBlock) (plainText : List Nat) :
    Option (Except GoError (List Nat)) :=
  match bb.Encrypt plainText with
  | none => none
  | some (.error e) => some (.error e)
  | some (.ok cipherText) => bb.Decrypt cipherText

/-- The ciphertext of a successful `blockBlock.Encrypt`, `[]` on panic
(used to state length claims without an existential). -/
def encryptOutput (bb : blockBlock) (plainText : List Nat) : List Nat :=
  match bb.Encrypt plainText with
  | some (.ok cipherText) => cipherText
  | _ => []

/-! ### Helper lemmas about the padding functions -/

lemma pcks_padding_eq (origData : List Nat) (blockSize : Nat) (h : blockSize ≠ 0) :
    PCKSPadding origData blockSize =
      some (origData ++ List.replicate (blockSize - origData.length % blockSize)
        ((blockSize - origData.length % blockSize) % 256)) := by
  simp [PCKSPadding, h]

lemma padSize_pos (L B : Nat) (h : 1 ≤ B) : 1 ≤ B - L % B := by
  have hm : L % B < B := Nat.mod_lt _ h
  omega

lemma pad_length_mod (L B : Nat) (h : 1 ≤ B) : (L + (B - L % B)) % B = 0 := by
  have hdvd : B ∣ L + (B - L % B) := by
    refine ⟨L / B + 1, ?_⟩
    have h1 : B * (L / B) + L % B = L := Nat.div_add_mod L B
    have h2 : L % B < B := Nat.mod_lt _ h
    rw [Nat.mul_add, Nat.mul_one]
    set k := B * (L / B) with hk
    set r := L % B with hr
    omega
  exact Nat.mod_eq_zero_of_dvd hdvd

lemma unpad_append_replicate (X : List Nat) (p : Nat) (h1 : 1 ≤ p) (h2 : p ≤ 255) :
    PCKSUnPadding (X ++ List.replicate p (p % 256)) = .ok X := by
  have hp : p % 256 = p := Nat.mod_eq_of_lt (by omega)
  rw [hp]
  have hlen : (X ++ List.replicate p p).length = X.length + p := by simp
  have hlast : (X ++ List.replicate p p).getD ((X ++ List.replicate p p).length - 1) 0 = p := by
    rw [hlen, List.getD_append_right _ _ _ _ (by omega)]
    have hidx : X.length + p - 1 - X.length = p - 1 := by omega
    rw [hidx]
    simp [List.getElem?_replicate_of_lt (show p - 1 < p by omega)]
  have h0 : ¬ ((X ++ List.replicate p p).length = 0) := by omega
  have hng : ¬ ((X ++ List.replicate p p).getD ((X ++ List.replicate p p).length - 1) 0
      > (X ++ List.replicate p p).length) := by
    rw [hlast, hlen]; omega
  simp only [PCKSUnPadding]
  rw [if_neg h0, if_neg hng, hlast, hlen, Nat.add_sub_cancel, List.take_left]

/-! ### Claims about padding and unpadding -/

/-- C3: for every byte sequence and every block size B >= 1, `PCKSPadding`
returns (deterministically) the input followed by the pad block; the result
length is `len + (B - len % B)`, a positive multiple of B, strictly greater
than the input length. -/
theorem pad_length_spec (data : List Nat) (B : Nat) (h : 1 ≤ B) :
    PCKSPadding data B =
      some (data ++ List.replicate (B - data.length % B) ((B - data.length % B) % 256)) ∧
    ((PCKSPadding data B).getD []).length = data.length + (B - data.length % B) ∧
    ((PCKSPadding data B).getD []).length % B = 0 ∧
    0 < ((PCKSPadding data B).getD []).length ∧
    data.length < ((PCKSPadding data B).getD []).length := by
  have heq := pcks_padding_eq data B (by omega)
  have hpos := padSize_pos data.length B h
  have hlen : ((PCKSPadding data B).getD []).length
      = data.length + (B - data.length % B) := by
    rw [heq]; simp
  refine ⟨heq, hlen, ?_, ?_, ?_⟩
  · rw [hlen]; exact pad_length_mod data.length B h
  · omega
  · omega

/-- C3 witness: concrete instance at `data = [9, 9, 9]`, `B = 2`. -/
theorem pad_length_spec_witness :
    PCKSPadding [9, 9, 9] 2 = some ([9, 9, 9] ++ List.replicate 1 1) ∧
    ((PCKSPadding [9, 9, 9] 2).getD []).length = 3 + 1 ∧
    ((PCKSPadding [9, 9, 9] 2).getD []).length % 2 = 0 ∧
    0 < ((PCKSPadding [9, 9, 9] 2).getD []).length ∧
    3 < ((PCKSPadding [9, 9, 9] 2).getD []).length :=
  pad_length_spec [9, 9, 9] 2 (by decide)

/-- C4: unpadding inverts padding: for every X and block size 1 <= B <= 255,
`PCKSUnPadding` applied to `PCKSPadding X B` succeeds and returns X. -/
theorem unpad_inverts_pad (X : List Nat) (B : Nat) (h1 : 1 ≤ B) (h2 : B ≤ 255) :
    (PCKSPadding X B).isSome = true ∧
    PCKSUnPadding ((PCKSPadding X B).getD []) = .ok X := by
  have heq := pcks_padding_eq X B (by omega)
  refine ⟨by rw [heq]; rfl, ?_⟩
  rw [heq]
  simpa using unpad_append_replicate X (B - X.length % B)
    (padSize_pos X.length B h1) (by omega)

/-- C4 witness: concrete instance at `X = [1, 2, 3]`, `B = 4`. -/
theorem unpad_inverts_pad_witness :
    (PCKSPadding [1, 2, 3] 4).isSome = true ∧
    PCKSUnPadding ((PCKSPadding [1, 2, 3] 4).getD []) = .ok [1, 2, 3] :=
  unpad_inverts_pad [1, 2, 3] 4 (by decide) (by decide)

/-- C2: `PCKSUnPadding` fails with the out-of-range error exactly when the
input is empty or its last byte exceeds the length; otherwise it succeeds and
returns the input minus that many trailing bytes (without inspecting their
values). -/
theorem unpad_error_characterization (data : List Nat) :
    (PCKSUnPadding data = .error .errUnPaddingOutOfRange ↔
      data.length = 0 ∨ data.length < data.getD (data.length - 1) 0) ∧
    (data.length ≠ 0 → data.getD (data.length - 1) 0 ≤ data.length →
      PCKSUnPadding data = .ok (data.take (data.length - data.getD (data.length - 1) 0))) := by
  constructor
  · by_cases h0 : data.length = 0
    · simp [PCKSUnPadding, h0]
    · by_cases h1 : data.getD (data.length - 1) 0 > data.length
      · simp only [PCKSUnPadding, if_neg h0, if_pos h1]
        constructor
        · intro _; right; exact h1
        · intro _; trivial
      · simp only [PCKSUnPadding, if_neg h0, if_neg h1]
        constructor
        · intro hcontra; exact absurd hcontra (by simp)
        · intro hor
          rcases hor with h | h
          · exact absurd h h0
          · exact absurd h h1
  · intro h0 h1
    simp only [PCKSUnPadding, if_neg h0, if_neg (Nat.not_lt.mpr h1)]

/-- C2 witness: concrete instances. `[5, 6, 2]` succeeds (returning `[5]`,
trailing bytes unchecked), `[7]` is out of range. -/
theorem unpad_error_characterization_witness :
    PCKSUnPadding [5, 6, 2] = .ok ([5, 6, 2].take (3 - 2)) ∧
    (PCKSUnPadding [7] = .error .errUnPaddingOutOfRange ↔
      ([7] : List Nat).length = 0 ∨
        ([7] : List Nat).length < ([7] : List Nat).getD (([7] : List Nat).length - 1) 0) :=
  ⟨(unpad_error_characterization [5, 6, 2]).2 (by decide) (by decide),
   (unpad_error_characterization [7]).1⟩

/-- C9: a non-empty input whose last byte is 0 unpads successfully to the
whole input (a zero pad size is accepted, not rejected). -/
theorem unpad_zero_pad_byte (data : List Nat) (h : data.length ≠ 0)
    (hlast : data.getD (data.length - 1) 0 = 0) :
    PCKSUnPadding data = .ok data := by
  simp only [PCKSUnPadding, if_neg h, hlast]
  rw [if_neg (by omega), Nat.sub_zero, List.take_length]

/-- C9 witness: concrete instance at `data = [1, 2, 0]`. -/
theorem unpad_zero_pad_byte_witness : PCKSUnPadding [1, 2, 0] = .ok [1, 2, 0] :=
  unpad_zero_pad_byte [1, 2, 0] (by decide) (by decide)

/-- C10: `PCKSPadding` at block size 0 hits Go's modulo-by-zero panic
(modelled as `none`); for every block size B >= 1 it always returns a
value. -/
theorem pad_total_iff_pos_block (data : List Nat) (B : Nat) (h : 1 ≤ B) :
    PCKSPadding data 0 = none ∧ (PCKSPadding data B).isSome = true := by
  refine ⟨rfl, ?_⟩
  rw [pcks_padding_eq data B (by omega)]
  rfl

/-- C10 witness: concrete instance at `data = [1]`, `B = 4`. -/
theorem pad_total_iff_pos_block_witness :
    PCKSPadding [1] 0 = none ∧ (PCKSPadding [1] 4).isSome = true :=
  pad_total_iff_pos_block [1] 4 (by decide)

/-- C7 counterexample: the claim quantifies over every block size, but at
`B = 256` (empty data, whose length 0 is a multiple of 256) the appended
padding bytes have value `byte(256) = 0`, not 256: the code truncates the pad
value to a byte. -/
theorem pad_full_block_counterexample :
    PCKSPadding [] 256 = some (List.replicate 256 0) ∧
    PCKSPadding [] 256 ≠ some (List.replicate 256 256) := by
  have hval : (256 - ([] : List Nat).length % 256) % 256 = 0 := by norm_num
  have heq : PCKSPadding [] 256 = some (List.replicate 256 0) := by
    rw [pcks_padding_eq [] 256 (by norm_num), hval]
    norm_num
  refine ⟨heq, ?_⟩
  rw [heq]
  intro hc
  have h2 : List.replicate 256 (0 : Nat) = List.replicate 256 256 :=
    Option.some.inj hc
  rw [List.replicate_right_inj (by norm_num)] at h2
  exact absurd h2 (by norm_num)

/-- C7 (amended): for every data whose length is a multiple of the block
size B with 1 <= B <= 255, `PCKSPadding` appends a full extra block of
exactly B bytes, each with byte value B. -/
theorem pad_full_block_amended (data : List Nat) (B : Nat) (h1 : 1 ≤ B) (h2 : B ≤ 255)
    (hmul : data.length % B = 0) :
    PCKSPadding data B = some (data ++ List.replicate B B) := by
  rw [pcks_padding_eq data B (by omega), hmul, Nat.sub_zero,
    Nat.mod_eq_of_lt (show B < 256 by omega)]

/-- C7 (amended) witness: concrete instance at `data = [7, 7]`, `B = 2`. -/
theorem pad_full_block_amended_witness :
    PCKSPadding [7, 7] 2 = some ([7, 7] ++ List.replicate 2 2) :=
  pad_full_block_amended [7, 7] 2 (by decide) (by decide) (by decide)

/-! ### Helper lemmas about CBC and the wrapper -/

lemma xorBytes_length (a b : List Nat) : (xorBytes a b).length = min a.length b.length := by
  simp [xorBytes]

lemma xorBytes_cancel (a : List Nat) : ∀ b : List Nat, b.length ≤ a.length →
    xorBytes a (xorBytes a b) = b := by
  induction a with
  | nil =>
    intro b hb
    have : b = [] := List.eq_nil_of_length_eq_zero (Nat.le_zero.mp (by simpa using hb))
    simp [this, xorBytes]
  | cons x xs ih =>
    intro b hb
    cases b with
    | nil => simp [xorBytes]
    | cons y ys =>
      simp only [xorBytes, List.zipWith_cons_cons]
      rw [← Nat.xor_assoc, Nat.xor_self, Nat.zero_xor]
      exact congrArg (List.cons y) (ih ys (by simpa using hb))

lemma cbcEncryptAux_length (enc : List Nat → List Nat) (bs : Nat) (_hbs : 0 < bs)
    (hlen : ∀ blk, blk.length = bs → (enc blk).length = bs) :
    ∀ n (prev data : List Nat), prev.length = bs → data.length = n * bs →
      (cbcEncryptAux enc bs n prev data).length = n * bs := by
  intro n
  induction n with
  | zero => intro prev data _ _; simp [cbcEncryptAux]
  | succ n ih =>
    intro prev data hprev hdata
    rw [Nat.succ_mul] at hdata
    have htake : (data.take bs).length = bs := by
      rw [List.length_take]
      set k := n * bs
      omega
    have hx : (xorBytes prev (data.take bs)).length = bs := by
      rw [xorBytes_length, hprev, htake, Nat.min_self]
    have hc : (enc (xorBytes prev (data.take bs))).length = bs := hlen _ hx
    have hdrop : (data.drop bs).length = n * bs := by
      rw [List.length_drop, hdata]
      set k := n * bs
      omega
    simp only [cbcEncryptAux, List.length_append]
    rw [hc, ih _ _ hc hdrop, Nat.succ_mul, Nat.add_comm]

lemma cbc_roundtrip (enc dec : List Nat → List Nat) (bs : Nat) (_hbs : 0 < bs)
    (hlen : ∀ blk, blk.length = bs → (enc blk).length = bs)
    (hinv : ∀ blk, blk.length = bs → dec (enc blk) = blk) :
    ∀ n (prev data : List Nat), prev.length = bs → data.length = n * bs →
      cbcDecryptAux dec bs n prev (cbcEncryptAux enc bs n prev data) = data := by
  intro n
  induction n with
  | zero =>
    intro prev data _ hdata
    simp only [cbcEncryptAux, cbcDecryptAux]
    exact (List.eq_nil_of_length_eq_zero (by simpa using hdata)).symm
  | succ n ih =>
    intro prev data hprev hdata
    rw [Nat.succ_mul] at hdata
    have htake : (data.take bs).length = bs := by
      rw [List.length_take]
      set k := n * bs
      omega
    have hx : (xorBytes prev (data.take bs)).length = bs := by
      rw [xorBytes_length, hprev, htake, Nat.min_self]
    have hc : (enc (xorBytes prev (data.take bs))).length = bs := hlen _ hx
    have hdrop : (data.drop bs).length = n * bs := by
      rw [List.length_drop, hdata]
      set k := n * bs
      omega
    simp only [cbcEncryptAux, cbcDecryptAux]
    rw [List.take_left' hc, List.drop_left' hc, hinv _ hx,
      xorBytes_cancel prev (data.take bs) (by rw [hprev, htake]),
      ih _ _ hc hdrop]
    exact List.take_append_drop bs data

lemma newCBCEncrypter_length (b : Block) (iv src : List Nat) (hbs : 0 < b.blockSize)
    (hiv : iv.length = b.blockSize)
    (hlen : ∀ blk, blk.length = b.blockSize → (b.enc blk).length = b.blockSize)
    (hsrc : src.length % b.blockSize = 0) :
    (newCBCEncrypter b iv src).length = src.length := by
  have hdvd : b.blockSize ∣ src.length := Nat.dvd_of_mod_eq_zero hsrc
  have hn : src.length = src.length / b.blockSize * b.blockSize :=
    (Nat.div_mul_cancel hdvd).symm
  unfold newCBCEncrypter
  rw [cbcEncryptAux_length b.enc b.blockSize hbs hlen _ iv src hiv hn]
  exact hn.symm

lemma newCBC_roundtrip (b : Block) (iv src : List Nat) (hbs : 0 < b.blockSize)
    (hiv : iv.length = b.blockSize)
    (hlen : ∀ blk, blk.length = b.blockSize → (b.enc blk).length = b.blockSize)
    (hinv : ∀ blk, blk.length = b.blockSize → b.dec (b.enc blk) = blk)
    (hsrc : src.length % b.blockSize = 0) :
    newCBCDecrypter b iv (newCBCEncrypter b iv src) = src := by
  have hdvd : b.blockSize ∣ src.length := Nat.dvd_of_mod_eq_zero hsrc
  have hn : src.length = src.length / b.blockSize * b.blockSize :=
    (Nat.div_mul_cancel hdvd).symm
  have hctlen : (newCBCEncrypter b iv src).length = src.length :=
    newCBCEncrypter_length b iv src hbs hiv hlen hsrc
  unfold newCBCDecrypter newCBCEncrypter
  unfold newCBCEncrypter at hctlen
  rw [hctlen]
  exact cbc_roundtrip b.enc b.dec b.blockSize hbs hlen hinv _ iv src hiv hn

lemma newBlockCrypt_default_ok (key iv : List Nat) (nc : List Nat → Except GoError Block)
    (bb : blockBlock) (hbb : NewBlockCrypt key iv nc [] = .ok bb) :
    nc key = .ok bb.block ∧ bb.iv = iv ∧ iv.length = bb.block.blockSize ∧
    bb.newEncrypt = newCBCEncrypter ∧ bb.newDecrypt = newCBCDecrypter := by
  unfold NewBlockCrypt at hbb
  cases hkey : nc key with
  | error e =>
    simp only [hkey] at hbb
    exact Except.noConfusion hbb
  | ok b =>
    simp only [hkey] at hbb
    by_cases hiv : iv.length ≠ b.blockSize
    · rw [if_pos hiv] at hbb
      exact Except.noConfusion hbb
    · rw [if_neg hiv] at hbb
      simp only [List.foldl_nil] at hbb
      have hrec := Except.ok.inj hbb
      rw [← hrec]
      exact ⟨rfl, rfl, not_not.mp hiv, rfl, rfl⟩

lemma decrypt_error_of_bad_length (sf : blockBlock) (cipherText : List Nat)
    (hbs : sf.block.blockSize ≠ 0)
    (hct : cipherText.length = 0 ∨ cipherText.length % sf.block.blockSize ≠ 0) :
    sf.Decrypt cipherText = some (.error .errInputNotMultipleBlocks) := by
  by_cases h0 : cipherText.length = 0
  · unfold blockBlock.Decrypt
    rw [if_pos h0]
  · have hmod : cipherText.length % sf.block.blockSize ≠ 0 := by
      rcases hct with h | h
      · exact absurd h h0
      · exact h
    unfold blockBlock.Decrypt
    rw [if_neg h0, if_neg hbs, if_pos hmod]

/-! ### Claims about the wrapper -/

/-- C1: with the default CBC factories and a valid (key, IV) pair — the IV
accepted at construction, a genuine block cipher with block size between 1
and 255 — Decrypt of Encrypt returns exactly the plaintext, with no error. -/
theorem encrypt_then_decrypt_roundtrip (key iv : List Nat)
    (nc : List Nat → Except GoError Block) (P : List Nat) (bb : blockBlock)
    (hbb : NewBlockCrypt key iv nc [] = .ok bb)
    (hbs : 1 ≤ bb.block.blockSize) (hbs255 : bb.block.blockSize ≤ 255)
    (hlen : ∀ blk, blk.length = bb.block.blockSize →
      (bb.block.enc blk).length = bb.block.blockSize)
    (hinv : ∀ blk, blk.length = bb.block.blockSize →
      bb.block.dec (bb.block.enc blk) = blk) :
    encryptThenDecrypt bb P = some (.ok P) := by
  obtain ⟨-, hiv0, hivlen, hne, hnd⟩ := newBlockCrypt_default_ok key iv nc bb hbb
  rw [← hiv0] at hivlen
  set bs := bb.block.blockSize with hbsdef
  set p := bs - P.length % bs with hpdef
  have hp1 : 1 ≤ p := padSize_pos P.length bs hbs
  have hp255 : p ≤ 255 := by
    have : p ≤ bs := Nat.sub_le _ _
    omega
  have hpadeq := pcks_padding_eq P bs (by omega)
  set padded := P ++ List.replicate p (p % 256) with hpad
  have hplen : padded.length = P.length + p := by simp [hpad]
  have hpmod : padded.length % bs = 0 := by
    rw [hplen]
    exact pad_length_mod P.length bs hbs
  have hppos : 0 < padded.length := by omega
  have hE : bb.Encrypt P = some (.ok (newCBCEncrypter bb.block bb.iv padded)) := by
    unfold blockBlock.Encrypt
    rw [← hbsdef, hpadeq, hne]
  have hctlen : (newCBCEncrypter bb.block bb.iv padded).length = padded.length :=
    newCBCEncrypter_length bb.block bb.iv padded (by omega) hivlen hlen hpmod
  have hD : bb.Decrypt (newCBCEncrypter bb.block bb.iv padded)
      = some (PCKSUnPadding (newCBCDecrypter bb.block bb.iv
          (newCBCEncrypter bb.block bb.iv padded))) := by
    unfold blockBlock.Decrypt
    rw [if_neg (by rw [hctlen]; omega), if_neg (by omega),
      if_neg (by rw [hctlen, ← hbsdef, hpmod]; exact not_not.mpr rfl), hnd]
  have hrt : newCBCDecrypter bb.block bb.iv (newCBCEncrypter bb.block bb.iv padded)
      = padded :=
    newCBC_roundtrip bb.block bb.iv padded (by omega) hivlen hlen hinv hpmod
  simp only [encryptThenDecrypt, hE]
  rw [hD, hrt, hpad, unpad_append_replicate P p hp1 hp255]

/-- C1 witness: identity cipher with block size 2, zero IV, plaintext `[5]`. -/
theorem encrypt_then_decrypt_roundtrip_witness :
    encryptThenDecrypt
      (blockBlock.mk (Block.mk 2 id id) [0, 0] newCBCEncrypter newCBCDecrypter) [5]
      = some (.ok [5]) :=
  encrypt_then_decrypt_roundtrip [] [0, 0] (fun _ => .ok (Block.mk 2 id id)) [5]
    (blockBlock.mk (Block.mk 2 id id) [0, 0] newCBCEncrypter newCBCDecrypter)
    rfl (by decide) (by decide) (fun blk h => h) (fun blk _ => rfl)

/-- C5: for every wrapper with a positive block size, Decrypt of an empty
buffer or of a buffer whose length is not a multiple of the block size fails
with the not-multiple-of-block-size error, and the result is the same for
every decrypting chaining-mode factory: the transform is never invoked. -/
theorem decrypt_rejects_bad_length (sf : blockBlock)
    (g : Block → List Nat → List Nat → List Nat) (cipherText : List Nat)
    (hbs : 1 ≤ sf.block.blockSize)
    (hct : cipherText.length = 0 ∨ cipherText.length % sf.block.blockSize ≠ 0) :
    sf.Decrypt cipherText = some (.error .errInputNotMultipleBlocks) ∧
    blockBlock.Decrypt { sf with newDecrypt := g } cipherText
      = some (.error .errInputNotMultipleBlocks) :=
  ⟨decrypt_error_of_bad_length sf cipherText (by omega) hct,
   decrypt_error_of_bad_length { sf with newDecrypt := g } cipherText
     (show sf.block.blockSize ≠ 0 by omega) hct⟩

/-- C5 witness: block size 2, three-byte ciphertext, two different decrypt
factories. -/
theorem decrypt_rejects_bad_length_witness :
    blockBlock.Decrypt
      (blockBlock.mk (Block.mk 2 id id) [0, 0] newCBCEncrypter newCBCDecrypter)
      [1, 2, 3] = some (.error .errInputNotMultipleBlocks) ∧
    blockBlock.Decrypt
      { blockBlock.mk (Block.mk 2 id id) [0, 0] newCBCEncrypter newCBCDecrypter with
        newDecrypt := fun _ _ d => d }
      [1, 2, 3] = some (.error .errInputNotMultipleBlocks) :=
  decrypt_rejects_bad_length
    (blockBlock.mk (Block.mk 2 id id) [0, 0] newCBCEncrypter newCBCDecrypter)
    (fun _ _ d => d) [1, 2, 3] (by decide) (by decide)

/-- C6: once construction (with the default factories) has succeeded on a
genuine block cipher, Encrypt never fails: it returns the ciphertext of
length `len(plaintext) + padSize`, a positive multiple of the block size —
in particular the IV is not prepended or appended to the output. -/
theorem encrypt_output_length (key iv : List Nat)
    (nc : List Nat → Except GoError Block) (P : List Nat) (bb : blockBlock)
    (hbb : NewBlockCrypt key iv nc [] = .ok bb)
    (hbs : 1 ≤ bb.block.blockSize)
    (hlen : ∀ blk, blk.length = bb.block.blockSize →
      (bb.block.enc blk).length = bb.block.blockSize) :
    bb.Encrypt P = some (.ok (encryptOutput bb P)) ∧
    (encryptOutput bb P).length
      = P.length + (bb.block.blockSize - P.length % bb.block.blockSize) ∧
    (encryptOutput bb P).length % bb.block.blockSize = 0 ∧
    0 < (encryptOutput bb P).length := by
  obtain ⟨-, hiv0, hivlen, hne, -⟩ := newBlockCrypt_default_ok key iv nc bb hbb
  rw [← hiv0] at hivlen
  set bs := bb.block.blockSize with hbsdef
  set p := bs - P.length % bs with hpdef
  have hp1 : 1 ≤ p := padSize_pos P.length bs hbs
  have hpadeq := pcks_padding_eq P bs (by omega)
  set padded := P ++ List.replicate p (p % 256) with hpad
  have hplen : padded.length = P.length + p := by simp [hpad]
  have hpmod : padded.length % bs = 0 := by
    rw [hplen]
    exact pad_length_mod P.length bs hbs
  have hE : bb.Encrypt P = some (.ok (newCBCEncrypter bb.block bb.iv padded)) := by
    unfold blockBlock.Encrypt
    rw [← hbsdef, hpadeq, hne]
  have hout : encryptOutput bb P = newCBCEncrypter bb.block bb.iv padded := by
    unfold encryptOutput
    rw [hE]
  have hctlen : (newCBCEncrypter bb.block bb.iv padded).length = padded.length :=
    newCBCEncrypter_length bb.block bb.iv padded (by omega) hivlen hlen hpmod
  refine ⟨by rw [hE, hout], ?_, ?_, ?_⟩
  · rw [hout, hctlen, hplen]
  · rw [hout, hctlen]
    exact hpmod
  · rw [hout, hctlen]
    omega

/-- C6 witness: identity cipher with block size 2, zero IV, plaintext `[5]`. -/
theorem encrypt_output_length_witness :
    blockBlock.Encrypt
        (blockBlock.mk (Block.mk 2 id id) [0, 0] newCBCEncrypter newCBCDecrypter) [5]
      = some (.ok (encryptOutput
          (blockBlock.mk (Block.mk 2 id id) [0, 0] newCBCEncrypter newCBCDecrypter) [5])) ∧
    (encryptOutput
        (blockBlock.mk (Block.mk 2 id id) [0, 0] newCBCEncrypter newCBCDecrypter)
        [5]).length = 1 + (2 - 1 % 2) ∧
    (encryptOutput
        (blockBlock.mk (Block.mk 2 id id) [0, 0] newCBCEncrypter newCBCDecrypter)
        [5]).length % 2 = 0 ∧
    0 < (encryptOutput
        (blockBlock.mk (Block.mk 2 id id) [0, 0] newCBCEncrypter newCBCDecrypter)
        [5]).length :=
  encrypt_output_length [] [0, 0] (fun _ => .ok (Block.mk 2 id id)) [5]
    (blockBlock.mk (Block.mk 2 id id) [0, 0] newCBCEncrypter newCBCDecrypter)
    rfl (by decide) (fun blk h => h)

/-- C8: if the cipher factory fails, `NewBlockCrypt` propagates its error
unchanged; if the factory succeeds but the IV length differs from the block
size, construction fails with the invalid-IV-size error (no wrapper is
returned in either case). -/
theorem new_block_crypt_errors (key iv : List Nat)
    (nc : List Nat → Except GoError Block)
    (opts : List (blockBlock → blockBlock)) (e : GoError) (b : Block) :
    (nc key = .error e → NewBlockCrypt key iv nc opts = .error e) ∧
    (nc key = .ok b → iv.length ≠ b.blockSize →
      NewBlockCrypt key iv nc opts = .error .errInvalidIvSize) := by
  constructor
  · intro h
    unfold NewBlockCrypt
    rw [h]
  · intro h hiv
    unfold NewBlockCrypt
    simp only [h]
    rw [if_pos hiv]

/-- C8 witness: a failing factory propagates its (opaque) error; a succeeding
factory with a one-byte IV against block size 2 yields the IV-size error. -/
theorem new_block_crypt_errors_witness :
    NewBlockCrypt [] [] (fun _ => .error (.external 7)) [] = .error (.external 7) ∧
    NewBlockCrypt [] [0] (fun _ => .ok (Block.mk 2 id id)) []
      = .error .errInvalidIvSize :=
  ⟨(new_block_crypt_errors [] [] (fun _ => .error (.external 7)) []
      (.external 7) (Block.mk 2 id id)).1 rfl,
   (new_block_crypt_errors [] [0] (fun _ => .ok (Block.mk 2 id id)) []
      (.external 7) (Block.mk 2 id id)).2 rfl (by decide)⟩
